import Mathlib

/-!
# Crawler: ticker and market collection

A shallow embedding of `crawler/cripto.go` and `crawler/market.go`: the
functions of the two files, over an explicit world of files, requests and log
entries, with the answers of the network, the file system and the clock given
by an environment.

Go strings are embedded as Lean strings (sequences of Unicode code points).
The regular expression `regexNumber` and the arguments of `strings.Replace`
only mention ASCII characters, so working on code points and working on the
UTF-8 bytes remove and replace the same characters.

`float64` values are embedded by their IEEE 754 binary64 fields, so that
`strconv.ParseFloat` and `strconv.FormatFloat` are ordinary functions on
natural numbers.
-/

namespace Crawler

/-! ## regexp and strings -/

/-- A bracket expression of a regular expression: a list of inclusive ranges. -/
abbrev CharClass := List (Char × Char)

/-- Whether a character belongs to a bracket expression. -/
def CharClass.test (cls : CharClass) (c : Char) : Bool :=
  cls.any (fun r => decide (r.1.toNat ≤ c.toNat) && decide (c.toNat ≤ r.2.toNat))

/-- The expression `[ a-zA-Z\$\.]` of market.go, line 18. -/
def regexNumber : CharClass :=
  [(' ', ' '), ('a', 'z'), ('A', 'Z'), ('$', '$'), ('.', '.')]

/-- `Regexp.ReplaceAllString` for an expression that is one bracket expression:
every match is a single character, and each match is replaced by `repl`. -/
def ReplaceAllString (re : CharClass) (src repl : String) : String :=
  String.mk (src.data.flatMap (fun c => if re.test c then repl.data else [c]))

/-- The loop of `strings.Replace` for one-character `old` and `new`: the first
`n` occurrences are replaced. -/
def replaceFirst (old new : Char) : Nat → List Char → List Char
  | 0, cs => cs
  | _, [] => []
  | n + 1, c :: cs =>
    if c = old then new :: replaceFirst old new n cs
    else c :: replaceFirst old new (n + 1) cs

/-- `strings.Replace(s, old, new, n)` with one-character `old` and `new` and
`n ≥ 0`. -/
def Replace (s : String) (old new : Char) (n : Nat) : String :=
  String.mk (replaceFirst old new n s.data)

/-- The loop of `fmt.Sprintf` for a format with one `%s` verb and one string
argument: the verb is replaced by the argument. -/
def sprintfLoop : List Char → List Char → List Char
  | [], _ => []
  | c :: rest, arg =>
    if c = '%' ∧ rest.head? = some 's' then arg ++ rest.tail
    else c :: sprintfLoop rest arg

/-- `fmt.Sprintf(format, arg)` for a format with one `%s` verb; also the text
of `fmt.Errorf(format, err)`, where `arg` is the text of `err`. -/
def Sprintf (format arg : String) : String :=
  String.mk (sprintfLoop format.data arg.data)

/-! ## float64 -/

/-- An IEEE 754 binary64 value, by its fields: sign bit, 11-bit biased
exponent, 52-bit fraction. -/
structure Float64 where
  sign : Bool
  expo : Nat
  frac : Nat
deriving DecidableEq, Repr

namespace Float64

/-- Positive zero, the zero value of a Go `float64`. -/
def zero : Float64 := ⟨false, 0, 0⟩

/-- Infinity of the given sign (`math.Inf`). -/
def inf (neg : Bool) : Float64 := ⟨neg, 2047, 0⟩

/-- The significand of a finite value, as an integer. -/
def mantissa (x : Float64) : Nat :=
  if x.expo = 0 then x.frac else 2 ^ 52 + x.frac

/-- The binary exponent of a finite value, shifted by 1074: the magnitude of
`x` is `mantissa x * 2 ^ shift x / 2 ^ 1074`. -/
def shift (x : Float64) : Nat := x.expo - 1

/-- Division of `n` by `d` rounded to the nearest integer, ties to even. -/
def divRoundEven (n d : Nat) : Nat :=
  let q := n / d
  let r := n % d
  if d < 2 * r ∨ (2 * r = d ∧ q % 2 = 1) then q + 1 else q

/-- The number of binary digits of `n`, by repeated halving (`fuel` bounds the
number of halvings; `n` itself is always enough). -/
def bitLength : Nat → Nat → Nat
  | 0, _ => 0
  | fuel + 1, n => if n = 0 then 0 else bitLength fuel (n / 2) + 1

/-- The fields of the value with significand `m` (at most `2 ^ 53`) and `b`
low bits dropped: subnormal when `m` is below `2 ^ 52`, and one exponent
higher when the rounding carried `m` up to `2 ^ 53`. -/
def pack (neg : Bool) (b m : Nat) : Float64 :=
  if m < 2 ^ 52 then ⟨neg, 0, m⟩
  else if m < 2 ^ 53 then ⟨neg, b + 1, m - 2 ^ 52⟩
  else ⟨neg, b + 2, 0⟩

/-- A rounded value whose exponent is past the largest finite one overflows to
the infinity of the sign; the flag reports it. -/
def checked (neg : Bool) (x : Float64) : Float64 × Bool :=
  if x.expo < 2047 then (x, false) else (inf neg, true)

/-- The binary64 value nearest to `n / d` (ties to even), with the given sign;
the flag tells that the result overflowed to an infinity. The quotient is
scaled by `2 ^ 1074`, the inverse of the smallest positive binary64 value, and
`b` is the number of low bits that do not fit in the 53-bit significand. -/
def ofRatio (neg : Bool) (n d : Nat) : Float64 × Bool :=
  let num := n * 2 ^ 1074
  let b := bitLength (num / d) (num / d) - 53
  checked neg (pack neg b (divRoundEven num (d * 2 ^ b)))

end Float64

/-! ## strconv -/

/-- The errors of package strconv. -/
inductive NumError where
  | ErrSyntax
  | ErrRange
deriving DecidableEq, Repr

/-- Whether the character is a decimal digit. -/
def isDigit (c : Char) : Bool := decide (48 ≤ c.toNat) && decide (c.toNat ≤ 57)

/-- Whether the character is an ASCII letter. -/
def isLetter (c : Char) : Bool :=
  (decide (97 ≤ c.toNat) && decide (c.toNat ≤ 122)) ||
  (decide (65 ≤ c.toNat) && decide (c.toNat ≤ 90))

/-- The variables of the digit loop of `readFloat`: the decimal digits read so
far as a number, how many of them follow the point, and the three flags. -/
structure Scan where
  mant : Nat
  scale : Nat
  sawdot : Bool
  sawdigits : Bool
  underscores : Bool
deriving DecidableEq, Repr

/-- The digit loop of `readFloat` in base 10. The text must be consumed whole:
`ParseFloat` reports a syntax error when characters are left over. -/
def scanDigits : List Char → Scan → Option Scan
  | [], st => some st
  | c :: cs, st =>
    if c = '_' then scanDigits cs { st with underscores := true }
    else if c = '.' then
      if st.sawdot then none else scanDigits cs { st with sawdot := true }
    else if isDigit c then
      scanDigits cs
        { st with
          mant := st.mant * 10 + (c.toNat - 48)
          scale := if st.sawdot then st.scale + 1 else st.scale
          sawdigits := true }
    else none

/-- The loop of `underscoreOK`: `saw` is the kind of character seen last. -/
def underscoreLoop : List Char → Char → Bool
  | [], saw => saw != '_'
  | c :: cs, saw =>
    if isDigit c then underscoreLoop cs '0'
    else if c = '_' then
      if saw != '0' then false else underscoreLoop cs '_'
    else if saw = '_' then false
    else underscoreLoop cs '!'

/-- The text after its optional sign. -/
def dropSign : List Char → List Char
  | [] => []
  | c :: cs => if c = '+' ∨ c = '-' then cs else c :: cs

/-- `underscoreOK`: underscores must separate digits (strconv accepts them
since Go 1.13). -/
def underscoreOK (s : List Char) : Bool := underscoreLoop (dropSign s) '^'

/-- `readFloat` on a text without ASCII letters: the sign, the digits as a
number, and the count of digits after the point; `none` when the text is
not well-formed. A letter could only start an exponent, a hexadecimal prefix,
`Inf` or `NaN`; `toMoney` removes every letter before it parses
(`moneyText_no_letter`). -/
def readFloat (s : List Char) : Option (Bool × Nat × Nat) :=
  match s with
  | [] => none
  | c :: _ =>
    match scanDigits (dropSign s) ⟨0, 0, false, false, false⟩ with
    | none => none
    | some st =>
      if !st.sawdigits then none
      else if st.underscores && !underscoreOK s then none
      else some (decide (c = '-'), st.mant, st.scale)

/-- `strconv.ParseFloat(s, 64)` on a text without ASCII letters, as package
strconv documents it: zero and `ErrSyntax` when the text is not well-formed;
otherwise the nearest binary64 value (ties to even), which is an infinity
together with `ErrRange` when the text is out of range. -/
def ParseFloat (s : String) : Float64 × Option NumError :=
  match readFloat s.data with
  | none => (Float64.zero, some NumError.ErrSyntax)
  | some (neg, mant, scale) =>
    match Float64.ofRatio neg mant (10 ^ scale) with
    | (x, true) => (x, some NumError.ErrRange)
    | (x, false) => (x, none)

/-- `strconv.FormatInt(i, 10)`. -/
def FormatInt (i : Int) : String :=
  match i with
  | Int.ofNat n => String.mk (Nat.toDigits 10 n)
  | Int.negSucc n => String.mk ('-' :: Nat.toDigits 10 (n + 1))

/-- The last two decimal digits of a number. -/
def twoDigits (n : Nat) : List Char :=
  [Nat.digitChar (n / 10 % 10), Nat.digitChar (n % 10)]

/-- `strconv.FormatFloat(x, 'f', 2, 64)`: the exact value of `x` rounded to two
decimals, ties to even. -/
def FormatFloat (x : Float64) : String :=
  if x.expo < 2047 then
    let cents := Float64.divRoundEven (x.mantissa * 2 ^ x.shift * 100) (2 ^ 1074)
    String.mk ((if x.sign then ['-'] else []) ++
      Nat.toDigits 10 (cents / 100) ++ '.' :: twoDigits cents)
  else if x.frac ≠ 0 then "NaN"
  else if x.sign then "-Inf"
  else "+Inf"

/-! ## market.go -/

/-- The text that `toMoney` passes to `strconv.ParseFloat`. -/
def moneyText (value : String) : String :=
  Replace (ReplaceAllString regexNumber value "") ',' '.' 1

/-- The result of `strconv.ParseFloat` inside `toMoney`. -/
def toMoneyParse (value : String) : Float64 × Option NumError :=
  ParseFloat (moneyText value)

/-- `toMoney`: the error is logged, the number is returned in every case. -/
def toMoney (value : String) : Float64 :=
  (toMoneyParse value).1

end Crawler


namespace Crawler

/-- The snapshot of market.go. `Timestamp` holds the Unix seconds of the
`time.Time`. -/
structure Market where
  Timestamp : Int
  Dolar : Float64
  Euro : Float64
  Nasdaq : Float64
  Bovespa : Float64
  Bitcoin : Float64
deriving DecidableEq, Repr

/-- The value of `Market{}`: the zero `time.Time` is year 1, whose Unix time
is -62135596800, and every float is positive zero. -/
def Market.empty : Market :=
  ⟨-62135596800, Float64.zero, Float64.zero, Float64.zero, Float64.zero, Float64.zero⟩

/-- `Market.ToArray`, market.go lines 29-38. -/
def Market.ToArray (m : Market) : List String :=
  [ FormatInt m.Timestamp,
    FormatFloat m.Dolar,
    FormatFloat m.Euro,
    FormatFloat m.Nasdaq,
    FormatFloat m.Bovespa,
    FormatFloat m.Bitcoin ]

/-! ## cripto.go -/

/-- The URL template of the ticker API, cripto.go line 16. -/
def CRIPTO_API : String := "https://api.coinmarketcap.com/v1/ticker/%s"

/-- The ticker record of cripto.go, lines 18-34. -/
structure Criptocoin where
  ID : String
  Name : String
  Symbol : String
  Rank : String
  PriceUsd : String
  PriceBtc : String
  Two4HVolumeUsd : String
  MarketCapUsd : String
  AvailableSupply : String
  TotalSupply : String
  MaxSupply : String
  PercentChange1H : String
  PercentChange24H : String
  PercentChange7D : String
  LastUpdated : String
deriving DecidableEq, Repr

/-- `Criptocoin.ToArray` on a non-nil receiver, cripto.go lines 36-52; `now` is
`time.Now().Unix()`. -/
def Criptocoin.ToArray (c : Criptocoin) (now : Int) : List String :=
  [ FormatInt now,
    c.PriceUsd,
    c.PriceBtc,
    c.Two4HVolumeUsd,
    c.MarketCapUsd,
    c.AvailableSupply,
    c.TotalSupply,
    c.MaxSupply,
    c.PercentChange1H,
    c.PercentChange24H,
    c.PercentChange7D,
    c.LastUpdated ]

/-! ## The world outside the program -/

/-- One row of a CSV file, before quoting. -/
abbrev Row := List String

/-- The files by path: the rows of a file, or `none` when it does not exist. -/
abbrev Files := String → Option (List Row)

/-- Opening with `O_CREATE`: a missing file comes into being, empty. -/
def Files.create (fs : Files) (path : String) : Files :=
  fun p => if p = path then some ((fs p).getD []) else fs p

/-- One row appended at the end of a file. -/
def Files.append (fs : Files) (path : String) (row : Row) : Files :=
  fun p => if p = path then some ((fs p).getD [] ++ [row]) else fs p

/-- What a GET of the ticker API followed by the JSON decoding gives. A `null`
element of the array decodes to a nil pointer. -/
inductive Response where
  | transportError (err : String)
  | decodeError (err : String)
  | decoded (coins : List (Option Criptocoin))
deriving DecidableEq, Repr

/-- The five selectors registered by `RunMarket`, in registration order. -/
inductive Selector where
  | ibovespa
  | dolar
  | euro
  | nasdaq
  | lastChild
deriving DecidableEq, Repr

/-- What the page visit gives: a failure (transport or HTTP status), on which
the collector runs the error callback and no HTML callback; or a page, with
the texts of the elements each selector matches, in document order. -/
inductive Visit where
  | failed (status : Nat) (body : String) (err : String)
  | page (texts : Selector → List String)

/-- The answers of the outside world during one cycle. -/
structure Env where
  /-- The response to a GET of the URL. -/
  get : String → Response
  /-- The outcome of the one page visit. -/
  visit : Visit
  /-- The error of `os.OpenFile` on the path, if it fails. -/
  openFile : String → Option String
  /-- The error of `Writer.Write` on the file of the path, if it fails. -/
  write : String → Option String
  /-- The clock, in Unix seconds, when the row for the file is stamped. -/
  now : String → Int

/-- What the program has done to the world: the files, the URLs requested so
far, and the entries logged at error level by `RunCripto` and by the error
callback of `RunMarket`. The entry that `toMoney` logs is the error of
`toMoneyParse`; the entries at info level are left out. -/
structure World where
  files : Files
  requests : List String
  errors : List String

/-- A call either returns or panics. -/
inductive Result (α : Type) where
  | ret (a : α)
  | panic (msg : String)
deriving DecidableEq, Repr

/-- The message of the runtime error raised by a field read through nil. -/
def nilDereference : String :=
  "runtime error: invalid memory address or nil pointer dereference"

/-- `GetCoin`, cripto.go lines 54-69: the pair `(record, error)`; `none` is nil.
The request is recorded in the world. -/
def GetCoin (env : Env) (w : World) (name : String) :
    World × Option Criptocoin × Option String :=
  let url := Sprintf CRIPTO_API name
  let w1 := { w with requests := w.requests ++ [url] }
  match env.get url with
  | Response.transportError err => (w1, none, some (Sprintf "Error on critpo request: %s" err))
  | Response.decodeError err =>
    (w1, none, some (Sprintf "Error on parse cripto response: %s" err))
  | Response.decoded coins =>
    match coins with
    | c :: _ => (w1, c, none)
    | [] => (w1, none, none)

/-- `saveCriptoCSV`, cripto.go lines 71-83. The file is opened first, creating
it; then `ToArray` reads the fields of the record and panics on a nil record;
then the row is written. A failed `Write` is taken to leave the rows as they
were, and the deferred `Flush` and `Close` to succeed. -/
def saveCriptoCSV (env : Env) (w : World) (cripto : Option Criptocoin) (coin : String) :
    World × Result (Option String) :=
  let path := Sprintf "data/%s.csv" coin
  match env.openFile path with
  | some err => (w, Result.ret (some err))
  | none =>
    let w1 := { w with files := w.files.create path }
    match cripto with
    | none => (w1, Result.panic nilDereference)
    | some c =>
      match env.write path with
      | some err => (w1, Result.ret (some err))
      | none =>
        ({ w1 with files := w1.files.append path (c.ToArray (env.now path)) }, Result.ret none)

/-- The tracked coins, cripto.go line 86. -/
def coins : List String := ["bitcoin", "ripple", "ethereum", "iota", "bitcoin-cash"]

/-- The loop of `RunCripto`, cripto.go lines 87-98, over the coins still to do. -/
def runCriptoLoop (env : Env) : List String → World → World × Result (Option String)
  | [], w => (w, Result.ret none)
  | coin :: rest, w =>
    match GetCoin env w coin with
    | (w1, _, some err) => (w1, Result.ret (some err))
    | (w1, res, none) =>
      match saveCriptoCSV env w1 res coin with
      | (w2, Result.panic msg) => (w2, Result.panic msg)
      | (w2, Result.ret (some err)) =>
        runCriptoLoop env rest
          { w2 with errors := w2.errors ++ [Sprintf "Err on save cripto: %s" err] }
      | (w2, Result.ret none) => runCriptoLoop env rest w2

/-- `RunCripto`, cripto.go lines 85-99. -/
def RunCripto (env : Env) (w : World) : World × Result (Option String) :=
  runCriptoLoop env coins w

/-! ## market.go, continued -/

/-- The callback registered for a selector, market.go lines 67-85: the field
of the snapshot is overwritten with the normalized text. -/
def onHTML (sel : Selector) (market : Market) (text : String) : Market :=
  match sel with
  | Selector.ibovespa => { market with Bovespa := toMoney text }
  | Selector.dolar => { market with Dolar := toMoney text }
  | Selector.euro => { market with Euro := toMoney text }
  | Selector.nasdaq => { market with Nasdaq := toMoney text }
  | Selector.lastChild => { market with Bitcoin := toMoney text }

/-- The selectors in the order of their registration. -/
def selectors : List Selector :=
  [Selector.ibovespa, Selector.dolar, Selector.euro, Selector.nasdaq, Selector.lastChild]

/-- The HTML callbacks of one page: for each selector in registration order,
the callback runs on each matching element in document order. -/
def runCallbacks (texts : Selector → List String) (market : Market) : Market :=
  selectors.foldl (fun m sel => (texts sel).foldl (onHTML sel) m) market

/-- `saveMarketCSV`, market.go lines 49-62, under the same reading of the
writer as `saveCriptoCSV`. -/
def saveMarketCSV (env : Env) (w : World) (market : Market) : World × Option String :=
  let path := "data/market.csv"
  match env.openFile path with
  | some err => (w, some err)
  | none =>
    let w1 := { w with files := w.files.create path }
    match env.write path with
    | some err => (w1, some err)
    | none => ({ w1 with files := w1.files.append path market.ToArray }, none)

/-- `RunMarket`, market.go lines 64-98. The result of `Visit` is dropped on
line 93; a failure reaches the error callback only, which logs it. -/
def RunMarket (env : Env) (w : World) : World × Option String :=
  let visited : Market × World :=
    match env.visit with
    | Visit.failed _ _ err => (Market.empty, { w with errors := w.errors ++ [err] })
    | Visit.page texts => (runCallbacks texts Market.empty, w)
  let market := { visited.1 with Timestamp := env.now "data/market.csv" }
  saveMarketCSV env visited.2 market

end Crawler

namespace Crawler

/-! ## Definitions in the words of the spec -/

/-- Whether the spec removes the character: a space, an ASCII letter, a dollar
sign or a period. -/
def removed (c : Char) : Bool :=
  decide (c = ' ') || isLetter c || decide (c = '$') || decide (c = '.')

/-- The normalized text in the words of the spec: the removed characters are
dropped, then the first comma that remains becomes a period. -/
def moneyTextSpec (s : String) : String :=
  let kept := s.data.filter (fun c => !removed c)
  let pre := kept.takeWhile (fun c => c != ',')
  match kept.dropWhile (fun c => c != ',') with
  | [] => String.mk pre
  | _ :: post => String.mk (pre ++ '.' :: post)

/-- The number that a run of decimal digits writes. -/
def decimalValue (ds : List Char) : Nat :=
  ds.foldl (fun acc c => acc * 10 + (c.toNat - 48)) 0

/-- A finite `x` lies within half a unit in its last place of `n / d`: with
`v = x.mantissa * 2 ^ x.shift / 2 ^ 1074` the magnitude of `x` and
`u = 2 ^ x.shift / 2 ^ 1074` its unit in the last place, `v ≤ n / d + u / 2`
and `n / d ≤ v + u / 2`, both multiplied by `2 * d * 2 ^ 1074`. -/
def nearRatio (x : Float64) (n d : Nat) : Prop :=
  x.expo < 2047 ∧
  2 * (x.mantissa * 2 ^ x.shift * d) ≤ 2 * (n * 2 ^ 1074) + d * 2 ^ x.shift ∧
  2 * (n * 2 ^ 1074) ≤ 2 * (x.mantissa * 2 ^ x.shift * d) + d * 2 ^ x.shift

/-- Groups of digits written with a period between one group and the next,
as in `1.234.567`. -/
def grouped : List (List Char) → List Char
  | [] => []
  | [g] => g
  | g :: gs => g ++ '.' :: grouped gs

/-- A text in the style of `1.234,56 USD`: groups of digits separated by
periods, a comma, the decimals, and a suffix. -/
def commaDecimalText (groups : List (List Char)) (frac suffix : List Char) : String :=
  String.mk (grouped groups ++ ',' :: frac ++ suffix)

/-- The file of a coin, as `saveCriptoCSV` names it. -/
def coinPath (coin : String) : String := Sprintf "data/%s.csv" coin

/-- Whether the fetch of the coin ends without an error. -/
def fetchOk (env : Env) (w : World) (coin : String) : Bool :=
  (GetCoin env w coin).2.2.isNone

/-- The error with which the save of a coin's record fails, if it does: that
of opening the file, else that of the write. -/
def saveError (env : Env) (coin : String) : Option String :=
  match env.openFile (coinPath coin) with
  | some err => some err
  | none => env.write (coinPath coin)

/-- The coins of a list that are fetched: those before the first failing
fetch, and the one whose fetch fails. -/
def attempted (env : Env) (w : World) (cs : List String) : List String :=
  cs.takeWhile (fetchOk env w) ++ (cs.dropWhile (fetchOk env w)).take 1

/-- The coins of a list that come after the first failing fetch. -/
def skipped (env : Env) (w : World) (cs : List String) : List String :=
  (cs.dropWhile (fetchOk env w)).drop 1

/-- The error of the first failing fetch of a list of coins, if any. -/
def firstFetchError (env : Env) (w : World) (cs : List String) : Option String :=
  cs.findSome? (fun coin => (GetCoin env w coin).2.2)

/-! ## Sample inputs -/

/-- A ticker record as the API returns it. -/
def sampleCoin : Criptocoin :=
  { ID := "bitcoin", Name := "Bitcoin", Symbol := "BTC", Rank := "1",
    PriceUsd := "9000.12", PriceBtc := "1.0", Two4HVolumeUsd := "7000000000.0",
    MarketCapUsd := "152000000000", AvailableSupply := "16880000.0",
    TotalSupply := "16880000.0", MaxSupply := "21000000.0",
    PercentChange1H := "0.1", PercentChange24H := "-2.5", PercentChange7D := "4.0",
    LastUpdated := "1519862400" }

/-- A world with no file, no request made and nothing logged. -/
def emptyWorld : World := ⟨fun _ => none, [], []⟩

/-- A cycle in which the API answers `[]` for ripple and one record for every
other coin, the page visit times out, and every file opens and is written. -/
def envRippleEmpty : Env :=
  { get := fun url =>
      if url = Sprintf CRIPTO_API "ripple" then Response.decoded []
      else Response.decoded [some sampleCoin]
    visit := Visit.failed 0 "" "Get http://www.infomoney.com.br/mercados/cambio: timeout"
    openFile := fun _ => none
    write := fun _ => none
    now := fun _ => 1519862460 }

/-- A cycle in which the request for ripple fails in transport, the file of
bitcoin cannot be opened, and the page has one Euro element, `€ 4,75`. -/
def envRippleDown : Env :=
  { get := fun url =>
      if url = Sprintf CRIPTO_API "ripple" then Response.transportError "connection refused"
      else Response.decoded [some sampleCoin]
    visit := Visit.page (fun sel => if sel = Selector.euro then ["€ 4,75"] else [])
    openFile := fun path => if path = "data/bitcoin.csv" then some "permission denied" else none
    write := fun _ => none
    now := fun _ => 1519862460 }

/-- A text of 310 digits: a one followed by 309 zeros. -/
def hugeText : String := String.mk ('1' :: List.replicate 309 '0')

/-- The same number with a minus sign before it. -/
def negHugeText : String := String.mk ('-' :: '1' :: List.replicate 309 '0')

/-- Whether a text begins with a minus sign. -/
def startsWithMinus (t : String) : Bool := decide (t.data.head? = some '-')

end Crawler

namespace Crawler

/-! # Properties -/

theorem char_eq_of_toNat_eq {c d : Char} (h : c.toNat = d.toNat) : c = d := by
  apply Char.ext
  apply UInt32.ext
  exact h

theorem test_regexNumber (c : Char) : regexNumber.test c = removed c := by
  have h1 : (c = ' ') ↔ (32 ≤ c.toNat ∧ c.toNat ≤ 32) := by
    constructor
    · rintro rfl; decide
    · intro h; exact char_eq_of_toNat_eq (by have : (' ' : Char).toNat = 32 := rfl; omega)
  have h2 : (c = '$') ↔ (36 ≤ c.toNat ∧ c.toNat ≤ 36) := by
    constructor
    · rintro rfl; decide
    · intro h; exact char_eq_of_toNat_eq (by have : ('$' : Char).toNat = 36 := rfl; omega)
  have h3 : (c = '.') ↔ (46 ≤ c.toNat ∧ c.toNat ≤ 46) := by
    constructor
    · rintro rfl; decide
    · intro h; exact char_eq_of_toNat_eq (by have : ('.' : Char).toNat = 46 := rfl; omega)
  have e1 : (' ' : Char).toNat = 32 := rfl
  have e2 : ('a' : Char).toNat = 97 := rfl
  have e3 : ('z' : Char).toNat = 122 := rfl
  have e4 : ('A' : Char).toNat = 65 := rfl
  have e5 : ('Z' : Char).toNat = 90 := rfl
  have e6 : ('$' : Char).toNat = 36 := rfl
  have e7 : ('.' : Char).toNat = 46 := rfl
  simp only [CharClass.test, regexNumber, List.any, removed, isLetter, e1, e2, e3, e4, e5, e6, e7,
    h1, h2, h3, Bool.or_false, Bool.decide_and, Bool.or_assoc]

theorem replaceAll_eq_filter (l : List Char) :
    l.flatMap (fun c => if regexNumber.test c then ("" : String).data else [c]) =
      l.filter (fun c => !removed c) := by
  induction l with
  | nil => rfl
  | cons c cs ih =>
    rw [List.flatMap_cons, ih, List.filter_cons, test_regexNumber]
    cases removed c <;> simp

theorem replaceFirst_one (l : List Char) :
    replaceFirst ',' '.' 1 l =
      match l.dropWhile (fun c => c != ',') with
      | [] => l.takeWhile (fun c => c != ',')
      | _ :: post => l.takeWhile (fun c => c != ',') ++ '.' :: post := by
  induction l with
  | nil => rfl
  | cons c cs ih =>
    by_cases h : c = ','
    · subst h
      simp [replaceFirst, List.dropWhile, List.takeWhile]
    · simp only [replaceFirst, h, if_false, ih]
      have hb : (c != ',') = true := by simpa using h
      simp only [List.dropWhile_cons, List.takeWhile_cons, hb, if_true]
      split <;> simp

theorem replaceFirst_all (p : Char → Prop) (old new : Char) (hnew : p new) :
    ∀ (n : Nat) (l : List Char), (∀ c ∈ l, p c) → ∀ c ∈ replaceFirst old new n l, p c := by
  intro n l
  induction l generalizing n with
  | nil =>
    intro _ c hc
    cases n <;> simp [replaceFirst] at hc
  | cons x xs ih =>
    intro hl c hc
    cases n with
    | zero =>
      simp only [replaceFirst] at hc
      exact hl c hc
    | succ n =>
      have hxs : ∀ y ∈ xs, p y := fun y hy => hl y (List.mem_cons_of_mem x hy)
      simp only [replaceFirst] at hc
      split at hc
      · rcases List.mem_cons.mp hc with h | h
        · exact h ▸ hnew
        · exact ih n hxs c h
      · rcases List.mem_cons.mp hc with h | h
        · exact h ▸ hl x (List.mem_cons_self x xs)
        · exact ih (n + 1) hxs c h

/-- The text that reaches the parser holds no ASCII letter. -/
theorem moneyText_no_letter (s : String) : ∀ c ∈ (moneyText s).data, isLetter c = false := by
  simp only [moneyText, Replace, ReplaceAllString, replaceAll_eq_filter]
  apply replaceFirst_all (fun c => isLetter c = false) ',' '.' (by decide)
  intro c hc
  have h := (List.mem_filter.mp hc).2
  simp only [removed, Bool.not_eq_true_eq_eq_false, Bool.or_eq_false_iff] at h
  exact h.1.1.2

/-- C4. The text handed to the float parser is the input without its spaces,
ASCII letters, dollar signs and periods, and with the first comma that remains
turned into a period; all other characters stay, in their order. The text
`1,234,56` becomes `1.234,56`. -/
theorem moneyText_eq_spec (s : String) :
    moneyText s = moneyTextSpec s ∧
    toMoney s = (ParseFloat (moneyTextSpec s)).1 ∧
    moneyText "1,234,56" = "1.234,56" := by
  have h : moneyText s = moneyTextSpec s := by
    simp only [moneyText, Replace, ReplaceAllString, moneyTextSpec, replaceAll_eq_filter,
      replaceFirst_one]
    split <;> simp_all
  refine ⟨h, ?_, by decide⟩
  simp only [toMoney, toMoneyParse, h]

/-! ## Rows -/

/-- C8, as amended. The row of `Criptocoin.ToArray` is the capture timestamp
followed by eleven fields of the record, price to last update, in that order:
twelve columns. The identifier, name, symbol and rank are not in the row. -/
theorem criptocoin_row_twelve_columns (c : Criptocoin) (now : Int) :
    c.ToArray now =
      [FormatInt now, c.PriceUsd, c.PriceBtc, c.Two4HVolumeUsd, c.MarketCapUsd,
        c.AvailableSupply, c.TotalSupply, c.MaxSupply, c.PercentChange1H,
        c.PercentChange24H, c.PercentChange7D, c.LastUpdated] ∧
    (c.ToArray now).length = 12 :=
  ⟨rfl, rfl⟩

/-- C8, as stated, fails: the row of the sample record does not have fifteen
columns, and no row has. -/
theorem criptocoin_row_not_fifteen_columns :
    (sampleCoin.ToArray 1519862460).length ≠ 15 ∧
    ¬ ∀ (c : Criptocoin) (now : Int), (c.ToArray now).length = 15 := by
  refine ⟨by decide, fun h => ?_⟩
  have h15 := h sampleCoin 0
  revert h15
  decide

theorem toDigitsCore_append (fuel : Nat) : ∀ (n : Nat) (ds : List Char),
    Nat.toDigitsCore 10 fuel n ds = Nat.toDigitsCore 10 fuel n [] ++ ds := by
  induction fuel with
  | zero => intro n ds; simp [Nat.toDigitsCore]
  | succ fuel ih =>
    intro n ds
    simp only [Nat.toDigitsCore]
    split
    · simp
    · rw [ih (n / 10) (_ :: ds), ih (n / 10) [_]]
      simp

theorem decimalValue_append (xs ys : List Char) :
    decimalValue (xs ++ ys) =
      ys.foldl (fun acc c => acc * 10 + (c.toNat - 48)) (decimalValue xs) := by
  simp [decimalValue, List.foldl_append]

theorem digitChar_toNat (d : Nat) (h : d < 10) : (Nat.digitChar d).toNat - 48 = d := by
  interval_cases d <;> rfl

theorem decimalValue_toDigitsCore (fuel : Nat) : ∀ n : Nat, n < fuel →
    decimalValue (Nat.toDigitsCore 10 fuel n []) = n := by
  induction fuel with
  | zero => intro n h; omega
  | succ fuel ih =>
    intro n h
    simp only [Nat.toDigitsCore]
    split
    · rename_i h0
      have hn : n % 10 = n := by omega
      have hd := digitChar_toNat (n % 10) (Nat.mod_lt _ (by decide))
      rw [hn] at hd
      simp [decimalValue, hn, hd]
    · rename_i h0
      rw [toDigitsCore_append, decimalValue_append, ih (n / 10) (by omega)]
      simp only [List.foldl_cons, List.foldl_nil,
        digitChar_toNat (n % 10) (Nat.mod_lt _ (by decide))]
      omega

theorem decimalValue_toDigits (n : Nat) : decimalValue (Nat.toDigits 10 n) = n :=
  decimalValue_toDigitsCore (n + 1) n (Nat.lt_succ_self n)

/-- C9. All rows of `Criptocoin.ToArray` have one length and all rows of
`Market.ToArray` have one length, whatever the fields hold; the first column
of each is the capture timestamp in decimal Unix seconds: `FormatInt` of it,
which for a time not before 1970 is the digits that write that number. -/
theorem rows_fixed_width_timestamp_first (c c2 : Criptocoin) (now now2 : Int)
    (m m2 : Market) (secs : Nat) :
    (c.ToArray now).length = (c2.ToArray now2).length ∧
    m.ToArray.length = m2.ToArray.length ∧
    (c.ToArray now).head? = some (FormatInt now) ∧
    m.ToArray.head? = some (FormatInt m.Timestamp) ∧
    decimalValue (FormatInt (Int.ofNat secs)).data = secs :=
  ⟨rfl, rfl, rfl, rfl, decimalValue_toDigits secs⟩

/-! ## Parse errors -/

theorem checked_overflow {neg : Bool} {y x : Float64}
    (h : Float64.checked neg y = (x, true)) : x = Float64.inf neg := by
  unfold Float64.checked at h
  split at h
  · simp at h
  · simp only [Prod.mk.injEq, and_true] at h
    exact h.symm

theorem ofRatio_overflow {neg : Bool} {n d : Nat} {x : Float64}
    (h : Float64.ofRatio neg n d = (x, true)) : x = Float64.inf neg :=
  checked_overflow h

theorem readFloat_sign {l : List Char} {neg : Bool} {mant scale : Nat}
    (h : readFloat l = some (neg, mant, scale)) : neg = decide (l.head? = some '-') := by
  cases l with
  | nil => simp [readFloat] at h
  | cons c cs =>
    simp only [readFloat] at h
    split at h
    · simp at h
    · split at h
      · simp at h
      · split at h
        · simp at h
        · simp only [Option.some.injEq, Prod.mk.injEq] at h
          simp [← h.1]

theorem parseFloat_error (t : String) (e : NumError) (h : (ParseFloat t).2 = some e) :
    (e = NumError.ErrSyntax ∧ (ParseFloat t).1 = Float64.zero) ∨
    (e = NumError.ErrRange ∧ (ParseFloat t).1 = Float64.inf (startsWithMinus t)) := by
  unfold ParseFloat at h ⊢
  cases hr : readFloat t.data with
  | none =>
    rw [hr] at h
    simp only [Option.some.injEq] at h
    exact Or.inl ⟨h.symm, rfl⟩
  | some r =>
    obtain ⟨neg, mant, scale⟩ := r
    have hsign := readFloat_sign hr
    rw [hr] at h
    simp only [] at h ⊢
    cases ho : Float64.ofRatio neg mant (10 ^ scale) with
    | mk x flag =>
      rw [ho] at h
      cases flag with
      | false => simp at h
      | true =>
        simp only [Option.some.injEq] at h
        have hx := ofRatio_overflow ho
        subst hx
        refine Or.inr ⟨h.symm, ?_⟩
        simp only [startsWithMinus, hsign]

/-- C3, as amended. When the parser reports an error for the normalized text,
`toMoney` returns what the parser returned with it: positive zero when the
text is not well-formed (`ErrSyntax`), and, when the text is well-formed but
out of range (`ErrRange`), the infinity of the sign of the text, not zero:
negative infinity when the normalized text begins with a minus sign, positive
infinity otherwise. -/
theorem toMoney_on_parse_error (s : String) (e : NumError)
    (h : (toMoneyParse s).2 = some e) :
    (e = NumError.ErrSyntax ∧ toMoney s = Float64.zero) ∨
    (e = NumError.ErrRange ∧ toMoney s = Float64.inf (startsWithMinus (moneyText s))) :=
  parseFloat_error (moneyText s) e h

/-- C3, witness: the text `n/a` normalizes to `/`, a syntax error; a minus
sign, a one and 309 zeros are out of range and give negative infinity. -/
theorem toMoney_on_parse_error_witness :
    ((toMoneyParse "n/a").2 = some NumError.ErrSyntax ∧
      ((NumError.ErrSyntax = NumError.ErrSyntax ∧ toMoney "n/a" = Float64.zero) ∨
        (NumError.ErrSyntax = NumError.ErrRange ∧
          toMoney "n/a" = Float64.inf (startsWithMinus (moneyText "n/a"))))) ∧
    ((toMoneyParse negHugeText).2 = some NumError.ErrRange ∧
      startsWithMinus (moneyText negHugeText) = true ∧
      ((NumError.ErrRange = NumError.ErrSyntax ∧ toMoney negHugeText = Float64.zero) ∨
        (NumError.ErrRange = NumError.ErrRange ∧
          toMoney negHugeText = Float64.inf (startsWithMinus (moneyText negHugeText))))) :=
  ⟨⟨by decide, toMoney_on_parse_error "n/a" NumError.ErrSyntax (by decide)⟩,
    ⟨by decide!, by decide!,
      toMoney_on_parse_error negHugeText NumError.ErrRange (by decide!)⟩⟩

/-- C3, as stated, fails: a one followed by 309 zeros is out of range, the
parser reports `ErrRange`, and `toMoney` returns positive infinity. -/
theorem toMoney_out_of_range_not_zero :
    (toMoneyParse hugeText).2 = some NumError.ErrRange ∧
    toMoney hugeText = Float64.inf false ∧
    toMoney hugeText ≠ Float64.zero := by
  decide!

/-! ## Currency symbols -/

theorem ne_of_toNat_ge {c k : Char} (hk : k.toNat < 128) (h : 128 ≤ c.toNat) : c ≠ k := by
  rintro rfl
  omega

theorem removed_eq_false_of_ge {c : Char} (h : 128 ≤ c.toNat) : removed c = false := by
  have h1 := ne_of_toNat_ge (k := ' ') (by decide) h
  have h2 := ne_of_toNat_ge (k := '$') (by decide) h
  have h3 := ne_of_toNat_ge (k := '.') (by decide) h
  have h4 : isLetter c = false := by
    simp only [isLetter, Bool.or_eq_false_iff, Bool.and_eq_false_iff, decide_eq_false_iff_not]
    omega
  simp [removed, h1, h2, h3, h4]

theorem moneyText_cons_of_ge (c : Char) (rest : List Char) (h : 128 ≤ c.toNat) :
    ∃ t : List Char, moneyText (String.mk (c :: rest)) = String.mk (c :: t) := by
  have hc := ne_of_toNat_ge (k := ',') (by decide) h
  refine ⟨replaceFirst ',' '.' 1 (rest.filter (fun c => !removed c)), ?_⟩
  simp only [moneyText, Replace, ReplaceAllString, replaceAll_eq_filter, List.filter_cons,
    removed_eq_false_of_ge h, Bool.not_false, if_true, replaceFirst, hc, if_false]

theorem parseFloat_cons_of_ge (c : Char) (t : List Char) (h : 128 ≤ c.toNat) :
    ParseFloat (String.mk (c :: t)) = (Float64.zero, some NumError.ErrSyntax) := by
  have h1 := ne_of_toNat_ge (k := '+') (by decide) h
  have h2 := ne_of_toNat_ge (k := '-') (by decide) h
  have h3 := ne_of_toNat_ge (k := '_') (by decide) h
  have h4 := ne_of_toNat_ge (k := '.') (by decide) h
  have h5 : isDigit c = false := by
    simp only [isDigit, Bool.and_eq_false_iff, decide_eq_false_iff_not]
    omega
  simp [ParseFloat, readFloat, dropSign, scanDigits, h1, h2, h3, h4, h5]

/-! ## Rounding

The value of a finite `x` is `x.mantissa * 2 ^ x.shift / 2 ^ 1074`. The
results of `Float64.ofRatio` lie within half a unit in the last place of the
quotient they round. -/

theorem divRoundEven_near (n d : Nat) (hd : 0 < d) :
    2 * (Float64.divRoundEven n d * d) ≤ 2 * n + d ∧
    2 * n ≤ 2 * (Float64.divRoundEven n d * d) + d := by
  have hdiv := Nat.div_add_mod n d
  have hmul : d * (n / d) = n / d * d := Nat.mul_comm _ _
  have hlt := Nat.mod_lt n hd
  unfold Float64.divRoundEven
  simp only []
  split
  · rename_i h
    rw [Nat.add_mul]
    constructor <;> rcases h with h | h <;> omega
  · rename_i h
    have h2 : 2 * (n % d) ≤ d := by
      by_contra hc
      exact h (Or.inl (by omega))
    constructor <;> omega

theorem bitLength_lower (fuel : Nat) : ∀ n : Nat, n ≤ fuel → n ≠ 0 →
    2 ^ (Float64.bitLength fuel n - 1) ≤ n := by
  induction fuel with
  | zero => intro n h h0; omega
  | succ fuel ih =>
    intro n h h0
    simp only [Float64.bitLength, h0, if_false, Nat.add_sub_cancel]
    by_cases h2 : n / 2 = 0
    · have : Float64.bitLength fuel (n / 2) = 0 := by
        rw [h2]
        cases fuel <;> simp [Float64.bitLength]
      rw [this]
      simp
      omega
    · have := ih (n / 2) (by omega) h2
      have hb : Float64.bitLength fuel (n / 2) =
          (Float64.bitLength fuel (n / 2) - 1) + 1 := by
        cases fuel with
        | zero => omega
        | succ f => simp [Float64.bitLength, h2]
      rw [hb, Nat.pow_succ]
      omega

theorem bitLength_upper (fuel : Nat) : ∀ n : Nat, n ≤ fuel →
    n < 2 ^ Float64.bitLength fuel n := by
  induction fuel with
  | zero => intro n h; simp [Float64.bitLength]; omega
  | succ fuel ih =>
    intro n h
    simp only [Float64.bitLength]
    split
    · rename_i h0
      simp [h0]
    · rename_i h0
      have := ih (n / 2) (by omega)
      rw [Nat.pow_succ]
      omega

theorem divRoundEven_ge (n d : Nat) : n / d ≤ Float64.divRoundEven n d := by
  unfold Float64.divRoundEven
  simp only []
  split <;> omega

theorem divRoundEven_le_succ (n d : Nat) : Float64.divRoundEven n d ≤ n / d + 1 := by
  unfold Float64.divRoundEven
  simp only []
  split <;> omega

theorem pack_near (neg : Bool) (N d t b m : Nat) (hd : 0 < d) (ht : t = N / d)
    (hb : b = Float64.bitLength t t - 53) (hm : m = Float64.divRoundEven N (d * 2 ^ b)) :
    (Float64.pack neg b m).sign = neg ∧
    2 * ((Float64.pack neg b m).mantissa * 2 ^ (Float64.pack neg b m).shift * d) ≤
      2 * N + d * 2 ^ (Float64.pack neg b m).shift ∧
    2 * N ≤ 2 * ((Float64.pack neg b m).mantissa * 2 ^ (Float64.pack neg b m).shift * d) +
      d * 2 ^ (Float64.pack neg b m).shift := by
  have hE : 0 < 2 ^ b := Nat.two_pow_pos b
  have hD : 0 < d * 2 ^ b := Nat.mul_pos hd hE
  obtain ⟨n1, n2⟩ := divRoundEven_near N (d * 2 ^ b) hD
  rw [← hm] at n1 n2
  have hq : N / (d * 2 ^ b) = t / 2 ^ b := by rw [ht, Nat.div_div_eq_div_mul]
  have hup : t < 2 ^ Float64.bitLength t t := bitLength_upper t t (Nat.le_refl t)
  have hL : Float64.bitLength t t ≤ b + 53 := by omega
  have hqlt : t / 2 ^ b < 2 ^ 53 := by
    rw [Nat.div_lt_iff_lt_mul hE]
    calc t < 2 ^ Float64.bitLength t t := hup
      _ ≤ 2 ^ (b + 53) := Nat.pow_le_pow_right (by decide) hL
      _ = 2 ^ 53 * 2 ^ b := by rw [Nat.pow_add, Nat.mul_comm]
  have hmle : m ≤ 2 ^ 53 := by
    have := divRoundEven_le_succ N (d * 2 ^ b)
    rw [← hm, hq] at this
    omega
  have hmge : t / 2 ^ b ≤ m := by
    have := divRoundEven_ge N (d * 2 ^ b)
    rw [← hm, hq] at this
    exact this
  unfold Float64.pack
  split
  · rename_i hlt
    have hb0 : b = 0 := by
      by_contra hne
      have hLeq : Float64.bitLength t t = b + 53 := by omega
      have ht0 : t ≠ 0 := by
        intro h0
        rw [h0] at hLeq
        simp [Float64.bitLength] at hLeq
      have hlow := bitLength_lower t t (Nat.le_refl t) ht0
      rw [hLeq] at hlow
      have h52 : 2 ^ 52 ≤ t / 2 ^ b := by
        rw [Nat.le_div_iff_mul_le hE]
        calc 2 ^ 52 * 2 ^ b = 2 ^ (b + 53 - 1) := by
              rw [show b + 53 - 1 = 52 + b by omega, Nat.pow_add]
          _ ≤ t := hlow
      omega
    rw [hb0] at n1 n2
    simp only [Nat.pow_zero, Nat.mul_one] at n1 n2
    simp only [Float64.mantissa, Float64.shift, if_true, Nat.zero_sub, Nat.pow_zero,
      Nat.mul_one]
    exact ⟨trivial, n1, n2⟩
  · split
    · rename_i h52 h53
      have hmant : 2 ^ 52 + (m - 2 ^ 52) = m := by omega
      have e : m * 2 ^ b * d = m * (d * 2 ^ b) := by ring
      simp only [Float64.mantissa, Float64.shift, Nat.add_sub_cancel, Nat.succ_ne_zero,
        if_false, hmant, e]
      exact ⟨trivial, n1, n2⟩
    · rename_i h52 h53
      have hm53 : m = 2 ^ 53 := by omega
      have e : (2 ^ 52 + 0) * 2 ^ (b + 2 - 1) * d = m * (d * 2 ^ b) := by
        rw [hm53, show b + 2 - 1 = b + 1 by omega, Nat.pow_succ]
        ring
      have e2 : d * 2 ^ (b + 2 - 1) = 2 * (d * 2 ^ b) := by
        rw [show b + 2 - 1 = b + 1 by omega, Nat.pow_succ]
        ring
      have hne : b + 2 ≠ 0 := by omega
      simp only [Float64.mantissa, Float64.shift, hne, if_false, e, e2]
      refine ⟨trivial, ?_, ?_⟩ <;> omega

theorem checked_finite {neg : Bool} {x : Float64}
    (h : (Float64.checked neg x).2 = false) :
    x.expo < 2047 ∧ (Float64.checked neg x).1 = x := by
  unfold Float64.checked at h ⊢
  split
  · rename_i hlt
    exact ⟨hlt, rfl⟩
  · rename_i hge
    rw [if_neg hge] at h
    simp at h

/-- The rounding of `Float64.ofRatio`: a result that did not overflow has the
sign asked for and is a finite value within half a unit in its last place of
`n / d`. -/
theorem ofRatio_near (neg : Bool) (n d : Nat) (hd : 0 < d)
    (hfin : (Float64.ofRatio neg n d).2 = false) :
    (Float64.ofRatio neg n d).1.sign = neg ∧
    nearRatio (Float64.ofRatio neg n d).1 n d := by
  have hp := pack_near neg (n * 2 ^ 1074) d _ _ _ hd rfl rfl rfl
  have hx : Float64.ofRatio neg n d =
      Float64.checked neg (Float64.pack neg
        (Float64.bitLength (n * 2 ^ 1074 / d) (n * 2 ^ 1074 / d) - 53)
        (Float64.divRoundEven (n * 2 ^ 1074)
          (d * 2 ^ (Float64.bitLength (n * 2 ^ 1074 / d) (n * 2 ^ 1074 / d) - 53)))) := rfl
  rw [hx] at hfin ⊢
  obtain ⟨hlt, heq⟩ := checked_finite hfin
  rw [heq]
  exact ⟨hp.1, hlt, hp.2⟩

/-! ## Comma-decimal texts -/

theorem digit_facts {c : Char} (h : isDigit c = true) :
    c ≠ '_' ∧ c ≠ '.' ∧ c ≠ ',' ∧ c ≠ '+' ∧ c ≠ '-' ∧ removed c = false := by
  simp only [isDigit, Bool.and_eq_true, decide_eq_true_eq] at h
  have e1 : c ≠ '_' := by rintro rfl; revert h; decide
  have e2 : c ≠ '.' := by rintro rfl; revert h; decide
  have e3 : c ≠ ',' := by rintro rfl; revert h; decide
  have e4 : c ≠ '+' := by rintro rfl; revert h; decide
  have e5 : c ≠ '-' := by rintro rfl; revert h; decide
  have e6 : c ≠ ' ' := by rintro rfl; revert h; decide
  have e7 : c ≠ '$' := by rintro rfl; revert h; decide
  have e8 : isLetter c = false := by
    simp only [isLetter, Bool.or_eq_false_iff, Bool.and_eq_false_iff, decide_eq_false_iff_not]
    omega
  refine ⟨e1, e2, e3, e4, e5, ?_⟩
  simp [removed, e2, e6, e7, e8]

theorem scanDigits_digits (ds : List Char) (hds : ∀ c ∈ ds, isDigit c = true) :
    ∀ (rest : List Char) (st : Scan),
    scanDigits (ds ++ rest) st =
      scanDigits rest
        { st with
          mant := ds.foldl (fun acc c => acc * 10 + (c.toNat - 48)) st.mant
          scale := if st.sawdot then st.scale + ds.length else st.scale
          sawdigits := st.sawdigits || !ds.isEmpty } := by
  induction ds with
  | nil =>
    intro rest st
    simp
  | cons c cs ih =>
    intro rest st
    have hc := hds c (List.mem_cons_self c cs)
    obtain ⟨e1, e2, -, -, -, -⟩ := digit_facts hc
    have hcs : ∀ x ∈ cs, isDigit x = true := fun x hx => hds x (List.mem_cons_of_mem c hx)
    rw [List.cons_append, scanDigits]
    simp only [e1, e2, hc, if_false, if_true]
    rw [ih hcs]
    congr 1
    cases hdot : st.sawdot <;> simp [hdot, Nat.add_assoc, Nat.add_comm 1]

theorem readFloat_digits_point_digits (ds fs : List Char)
    (hds : ∀ c ∈ ds, isDigit c = true) (hfs : ∀ c ∈ fs, isDigit c = true)
    (hsome : ds ++ fs ≠ []) :
    readFloat (ds ++ '.' :: fs) = some (false, decimalValue (ds ++ fs), fs.length) := by
  have hscan : scanDigits (ds ++ '.' :: fs) ⟨0, 0, false, false, false⟩ =
      some ⟨decimalValue (ds ++ fs), fs.length, true, !ds.isEmpty || !fs.isEmpty, false⟩ := by
    rw [scanDigits_digits ds hds, scanDigits]
    simp only [Char.reduceEq, if_false, if_true, Bool.false_eq_true]
    have h2 := scanDigits_digits fs hfs []
    simp only [List.append_nil] at h2
    rw [h2, scanDigits]
    simp [decimalValue, List.foldl_append]
  have hsaw : (!ds.isEmpty || !fs.isEmpty) = true := by
    cases ds with
    | nil =>
      cases fs with
      | nil => simp at hsome
      | cons f fs => simp
    | cons d ds => simp
  cases ds with
  | nil =>
    simp only [List.nil_append] at hscan hsome ⊢
    simp [readFloat, dropSign, hscan, hsome]
  | cons d ds =>
    obtain ⟨-, -, -, e4, e5, -⟩ := digit_facts (hds d (List.mem_cons_self d ds))
    simp only [List.cons_append] at hscan ⊢
    simp only [List.isEmpty_cons, Bool.not_false, Bool.true_or] at hscan
    simp [readFloat, dropSign, e4, e5, hscan]

theorem replaceFirst_digits (ds rest : List Char) (hds : ∀ c ∈ ds, isDigit c = true) :
    replaceFirst ',' '.' 1 (ds ++ ',' :: rest) = ds ++ '.' :: rest := by
  induction ds with
  | nil => simp [replaceFirst]
  | cons c cs ih =>
    obtain ⟨-, -, e3, -, -, -⟩ := digit_facts (hds c (List.mem_cons_self c cs))
    have hcs : ∀ x ∈ cs, isDigit x = true := fun x hx => hds x (List.mem_cons_of_mem c hx)
    simp [replaceFirst, e3, ih hcs]

theorem filter_digits (ds : List Char) (hds : ∀ c ∈ ds, isDigit c = true) :
    ds.filter (fun c => !removed c) = ds := by
  rw [List.filter_eq_self]
  intro c hc
  simp [(digit_facts (hds c hc)).2.2.2.2.2]

theorem filter_grouped (groups : List (List Char))
    (hgroups : ∀ g ∈ groups, ∀ c ∈ g, isDigit c = true) :
    (grouped groups).filter (fun c => !removed c) = groups.flatten := by
  induction groups with
  | nil => rfl
  | cons g gs ih =>
    have hg := filter_digits g (hgroups g (List.mem_cons_self g gs))
    have hgs : ∀ x ∈ gs, ∀ c ∈ x, isDigit c = true :=
      fun x hx => hgroups x (List.mem_cons_of_mem g hx)
    cases gs with
    | nil => simp [grouped, hg]
    | cons g2 gs2 =>
      have hdot : removed '.' = true := by decide
      simp only [grouped, List.filter_append, List.filter_cons, hdot, Bool.not_true,
        Bool.false_eq_true, if_false, hg, List.flatten_cons]
      rw [ih hgs, List.flatten_cons]

theorem filter_suffix (suffix : List Char)
    (hsuffix : ∀ c ∈ suffix, c = ' ' ∨ isLetter c = true) :
    suffix.filter (fun c => !removed c) = [] := by
  rw [List.filter_eq_nil_iff]
  intro c hc
  rcases hsuffix c hc with h | h
  · subst h; decide
  · simp [removed, h]

theorem moneyText_commaDecimal (groups : List (List Char)) (frac suffix : List Char)
    (hgroups : ∀ g ∈ groups, ∀ c ∈ g, isDigit c = true)
    (hfrac : ∀ c ∈ frac, isDigit c = true)
    (hsuffix : ∀ c ∈ suffix, c = ' ' ∨ isLetter c = true) :
    moneyText (commaDecimalText groups frac suffix) =
      String.mk (groups.flatten ++ '.' :: frac) := by
  have hjoin : ∀ c ∈ groups.flatten, isDigit c = true := by
    intro c hc
    obtain ⟨g, hg, hcg⟩ := List.mem_flatten.mp hc
    exact hgroups g hg c hcg
  have hcomma : removed ',' = false := by decide
  simp only [moneyText, Replace, ReplaceAllString, commaDecimalText, replaceAll_eq_filter,
    List.filter_append, List.filter_cons, hcomma, Bool.not_false, if_true,
    filter_grouped groups hgroups, filter_digits frac hfrac, filter_suffix suffix hsuffix,
    List.append_nil]
  rw [replaceFirst_digits _ _ hjoin]

theorem bitLength_le (fuel : Nat) : ∀ (n k : Nat), n < 2 ^ k →
    Float64.bitLength fuel n ≤ k := by
  induction fuel with
  | zero => intro n k _; simp [Float64.bitLength]
  | succ fuel ih =>
    intro n k h
    simp only [Float64.bitLength]
    split
    · exact Nat.zero_le k
    · rename_i hn
      cases k with
      | zero => simp at h; exact absurd h hn
      | succ k =>
        have h2 : n / 2 < 2 ^ k := by
          rw [Nat.div_lt_iff_lt_mul (by decide)]
          rw [Nat.pow_succ] at h
          exact h
        have := ih (n / 2) k h2
        omega

theorem pack_expo (neg : Bool) (b m : Nat) (h : b ≤ 2044 ∨ (b ≤ 2045 ∧ m < 2 ^ 53)) :
    (Float64.pack neg b m).expo < 2047 := by
  unfold Float64.pack
  split
  · simp
  · split
    · simp only []
      omega
    · simp only []
      omega

set_option exponentiation.threshold 4096 in
theorem ofRatio_finite (neg : Bool) (n d : Nat) (hn : n < 10 ^ 308 * d) :
    (Float64.ofRatio neg n d).2 = false := by
  have hT : 10 ^ 308 * 2 ^ 1074 ≤ 2 ^ 2098 := by decide!
  have hQ : (10 ^ 308 * 2 ^ 1074) / 2 ^ 2045 + 1 < 2 ^ 53 := by decide!
  have hP : 0 < 2 ^ 1074 := Nat.two_pow_pos 1074
  have ht : n * 2 ^ 1074 / d < 10 ^ 308 * 2 ^ 1074 := by
    apply Nat.div_lt_of_lt_mul
    have h1 : n * 2 ^ 1074 < 10 ^ 308 * d * 2 ^ 1074 := Nat.mul_lt_mul_of_pos_right hn hP
    have h2 : 10 ^ 308 * d * 2 ^ 1074 = d * (10 ^ 308 * 2 ^ 1074) := by
      rw [Nat.mul_comm (10 ^ 308) d, Nat.mul_assoc]
    rw [← h2]
    exact h1
  have hb : Float64.bitLength (n * 2 ^ 1074 / d) (n * 2 ^ 1074 / d) ≤ 2098 :=
    bitLength_le _ _ _ (Nat.lt_of_lt_of_le ht hT)
  have hm := divRoundEven_le_succ (n * 2 ^ 1074)
    (d * 2 ^ (Float64.bitLength (n * 2 ^ 1074 / d) (n * 2 ^ 1074 / d) - 53))
  rw [← Nat.div_div_eq_div_mul] at hm
  have hexpo : (Float64.pack neg (Float64.bitLength (n * 2 ^ 1074 / d) (n * 2 ^ 1074 / d) - 53)
      (Float64.divRoundEven (n * 2 ^ 1074)
        (d * 2 ^ (Float64.bitLength (n * 2 ^ 1074 / d) (n * 2 ^ 1074 / d) - 53)))).expo
      < 2047 := by
    apply pack_expo
    by_cases hcase : Float64.bitLength (n * 2 ^ 1074 / d) (n * 2 ^ 1074 / d) - 53 ≤ 2044
    · exact Or.inl hcase
    · have hb2 : Float64.bitLength (n * 2 ^ 1074 / d) (n * 2 ^ 1074 / d) - 53 = 2045 := by
        omega
      refine Or.inr ⟨by omega, ?_⟩
      rw [hb2] at hm ⊢
      have hq : n * 2 ^ 1074 / d / 2 ^ 2045 ≤ 10 ^ 308 * 2 ^ 1074 / 2 ^ 2045 :=
        Nat.div_le_div_right (Nat.le_of_lt ht)
      exact Nat.lt_of_le_of_lt (Nat.le_trans hm (Nat.add_le_add_right hq 1)) hQ
  unfold Float64.ofRatio Float64.checked
  simp only []
  rw [if_pos hexpo]

theorem decimalValue_lt (ds : List Char) (hds : ∀ c ∈ ds, isDigit c = true) :
    decimalValue ds < 10 ^ ds.length := by
  induction ds using List.reverseRecOn with
  | nil => simp [decimalValue]
  | append_singleton cs c ih =>
    have hcs : ∀ x ∈ cs, isDigit x = true := fun x hx => hds x (List.mem_append_left _ hx)
    have hc := hds c (List.mem_append_right _ (List.mem_singleton_self c))
    simp only [isDigit, Bool.and_eq_true, decide_eq_true_eq] at hc
    have h := ih hcs
    rw [decimalValue_append]
    simp only [List.foldl_cons, List.foldl_nil, List.length_append, List.length_singleton,
      Nat.pow_succ]
    omega

set_option exponentiation.threshold 4096 in
/-- C5, as amended. For a text in the style of `1.234,56 USD` (groups of
digits separated by periods, a comma, the decimals, then spaces and letters),
with at least one digit and at most 308 digits before the comma, `toMoney`
parses without error and returns the number written, the digits before the
comma as the whole part and the digits after it as the decimals: the binary64
value that rounds it, which is not negative and within half a unit in its
last place of that number. A text in the style of `$1,234.56` is not read as
the number it writes: the period is removed and the first comma becomes the
decimal point, so `$1,234.56` gives 1.23456. -/
theorem toMoney_comma_decimal (groups : List (List Char)) (frac suffix : List Char)
    (hgroups : ∀ g ∈ groups, ∀ c ∈ g, isDigit c = true)
    (hfrac : ∀ c ∈ frac, isDigit c = true)
    (hsuffix : ∀ c ∈ suffix, c = ' ' ∨ isLetter c = true)
    (hsome : groups.flatten ++ frac ≠ [])
    (hlen : groups.flatten.length ≤ 308) :
    toMoneyParse (commaDecimalText groups frac suffix) =
      ((Float64.ofRatio false (decimalValue (groups.flatten ++ frac)) (10 ^ frac.length)).1,
        none) ∧
    (toMoney (commaDecimalText groups frac suffix)).sign = false ∧
    nearRatio (toMoney (commaDecimalText groups frac suffix))
      (decimalValue (groups.flatten ++ frac)) (10 ^ frac.length) ∧
    toMoneyParse "$1,234.56" = ((Float64.ofRatio false 123456 100000).1, none) := by
  have hjoin : ∀ c ∈ groups.flatten, isDigit c = true := by
    intro c hc
    obtain ⟨g, hg, hcg⟩ := List.mem_flatten.mp hc
    exact hgroups g hg c hcg
  have hall : ∀ c ∈ groups.flatten ++ frac, isDigit c = true := by
    intro c hc
    rcases List.mem_append.mp hc with h | h
    · exact hjoin c h
    · exact hfrac c h
  have hval : decimalValue (groups.flatten ++ frac) < 10 ^ 308 * 10 ^ frac.length := by
    have h1 := decimalValue_lt _ hall
    rw [List.length_append, Nat.pow_add] at h1
    exact Nat.lt_of_lt_of_le h1
      (Nat.mul_le_mul_right _ (Nat.pow_le_pow_right (by decide) hlen))
  have hfin := ofRatio_finite false _ _ hval
  have hnear := ofRatio_near false _ _ (Nat.pos_pow_of_pos frac.length (by decide)) hfin
  have hparse : toMoneyParse (commaDecimalText groups frac suffix) =
      ((Float64.ofRatio false (decimalValue (groups.flatten ++ frac)) (10 ^ frac.length)).1,
        none) := by
    simp only [toMoneyParse, moneyText_commaDecimal groups frac suffix hgroups hfrac hsuffix,
      ParseFloat, readFloat_digits_point_digits _ _ hjoin hfrac hsome]
    rcases hr : Float64.ofRatio false (decimalValue (groups.flatten ++ frac))
      (10 ^ frac.length) with ⟨x, flag⟩
    rw [hr] at hfin
    simp only at hfin
    subst hfin
    rfl
  have hmoney : toMoney (commaDecimalText groups frac suffix) =
      (Float64.ofRatio false (decimalValue (groups.flatten ++ frac)) (10 ^ frac.length)).1 := by
    simp only [toMoney, hparse]
  rw [hmoney]
  exact ⟨hparse, hnear.1, hnear.2, by decide!⟩

/-- C5, witness: `1.234,56 USD` is read as 1234.56, whose binary64 fields are
sign 0, exponent 1033, fraction 0x34A3D70A3D70A. -/
theorem toMoney_comma_decimal_witness :
    commaDecimalText [['1'], ['2', '3', '4']] ['5', '6'] [' ', 'U', 'S', 'D'] = "1.234,56 USD" ∧
    decimalValue ([['1'], ['2', '3', '4']].flatten ++ ['5', '6']) = 123456 ∧
    toMoney "1.234,56 USD" = ⟨false, 1033, 0x34A3D70A3D70A⟩ ∧
    (toMoneyParse (commaDecimalText [['1'], ['2', '3', '4']] ['5', '6'] [' ', 'U', 'S', 'D']) =
      ((Float64.ofRatio false (decimalValue ([['1'], ['2', '3', '4']].flatten ++ ['5', '6']))
        (10 ^ ['5', '6'].length)).1, none) ∧
    (toMoney (commaDecimalText [['1'], ['2', '3', '4']] ['5', '6']
      [' ', 'U', 'S', 'D'])).sign = false ∧
    nearRatio (toMoney (commaDecimalText [['1'], ['2', '3', '4']] ['5', '6']
      [' ', 'U', 'S', 'D']))
      (decimalValue ([['1'], ['2', '3', '4']].flatten ++ ['5', '6'])) (10 ^ ['5', '6'].length) ∧
    toMoneyParse "$1,234.56" = ((Float64.ofRatio false 123456 100000).1, none)) :=
  ⟨by decide, by decide, by decide!,
    toMoney_comma_decimal [['1'], ['2', '3', '4']] ['5', '6'] [' ', 'U', 'S', 'D']
      (by decide) (by decide) (by decide) (by decide) (by decide)⟩

/-- C5, as stated, fails: for `$1,234.56` the normalized text is `1.23456`
and `toMoney` returns 1.23456, not 1234.56. -/
theorem toMoney_dollar_style_misread :
    moneyText "$1,234.56" = "1.23456" ∧
    toMoney "$1,234.56" = ⟨false, 1023, 0x3C0C1FC8F3238⟩ ∧
    (Float64.ofRatio false 123456 100).1 = ⟨false, 1033, 0x34A3D70A3D70A⟩ ∧
    toMoney "$1,234.56" ≠ (Float64.ofRatio false 123456 100).1 := by
  decide!

/-! ## Decorated comma-decimal texts -/

theorem moneyText_of_kept (s : String) (ds fs : List Char)
    (hkept : s.data.filter (fun c => !removed c) = ds ++ ',' :: fs)
    (hds : ∀ c ∈ ds, isDigit c = true) :
    moneyText s = String.mk (ds ++ '.' :: fs) := by
  simp only [moneyText, Replace, ReplaceAllString, replaceAll_eq_filter, hkept]
  rw [replaceFirst_digits _ _ hds]

set_option exponentiation.threshold 4096 in
theorem toMoneyParse_of_kept (s : String) (ds fs : List Char)
    (hkept : s.data.filter (fun c => !removed c) = ds ++ ',' :: fs)
    (hds : ∀ c ∈ ds, isDigit c = true) (hfs : ∀ c ∈ fs, isDigit c = true)
    (hsome : ds ++ fs ≠ []) (hlen : ds.length ≤ 308) :
    toMoneyParse s =
      ((Float64.ofRatio false (decimalValue (ds ++ fs)) (10 ^ fs.length)).1, none) ∧
    (Float64.ofRatio false (decimalValue (ds ++ fs)) (10 ^ fs.length)).1.sign = false ∧
    nearRatio (Float64.ofRatio false (decimalValue (ds ++ fs)) (10 ^ fs.length)).1
      (decimalValue (ds ++ fs)) (10 ^ fs.length) := by
  have hall : ∀ c ∈ ds ++ fs, isDigit c = true := by
    intro c hc
    rcases List.mem_append.mp hc with h | h
    · exact hds c h
    · exact hfs c h
  have hval : decimalValue (ds ++ fs) < 10 ^ 308 * 10 ^ fs.length := by
    have h1 := decimalValue_lt _ hall
    rw [List.length_append, Nat.pow_add] at h1
    exact Nat.lt_of_lt_of_le h1
      (Nat.mul_le_mul_right _ (Nat.pow_le_pow_right (by decide) hlen))
  have hfin := ofRatio_finite false _ _ hval
  have hnear := ofRatio_near false _ _ (Nat.pos_pow_of_pos fs.length (by decide)) hfin
  refine ⟨?_, hnear.1, hnear.2⟩
  simp only [toMoneyParse, moneyText_of_kept s ds fs hkept hds, ParseFloat,
    readFloat_digits_point_digits _ _ hds hfs hsome]
  rcases hr : Float64.ofRatio false (decimalValue (ds ++ fs)) (10 ^ fs.length) with ⟨x, flag⟩
  rw [hr] at hfin
  simp only at hfin
  subst hfin
  rfl

/-- C6, as amended. A text that begins with a non-ASCII character, such as
the Euro sign, keeps that character through the normalization, so the parse
fails: `toMoney` returns zero and the Euro column of the row is `0.00`. Every
text whose characters other than spaces, ASCII letters, dollar signs and
periods are a comma-decimal number (digits, a comma, digits; at least one
digit, at most 308 before the comma) parses without error to that number: the
binary64 value that rounds it, not negative and within half a unit in its
last place, and the Euro column is `FormatFloat` of it. For `R$ 4,75` the
number is 4.75 and the column `4.75`. -/
theorem toMoney_non_ascii_symbol (c : Char) (rest : String) (m : Market)
    (s : String) (ds fs : List Char)
    (h : 128 ≤ c.toNat)
    (hkept : s.data.filter (fun c => !removed c) = ds ++ ',' :: fs)
    (hds : ∀ c ∈ ds, isDigit c = true) (hfs : ∀ c ∈ fs, isDigit c = true)
    (hsome : ds ++ fs ≠ []) (hlen : ds.length ≤ 308) :
    toMoney (String.mk (c :: rest.data)) = Float64.zero ∧
    (onHTML Selector.euro m (String.mk (c :: rest.data))).ToArray.get? 2 = some "0.00" ∧
    toMoneyParse s =
      ((Float64.ofRatio false (decimalValue (ds ++ fs)) (10 ^ fs.length)).1, none) ∧
    (toMoney s).sign = false ∧
    nearRatio (toMoney s) (decimalValue (ds ++ fs)) (10 ^ fs.length) ∧
    (onHTML Selector.euro m s).ToArray.get? 2 = some (FormatFloat (toMoney s)) ∧
    toMoney "R$ 4,75" = (Float64.ofRatio false 475 100).1 ∧
    (onHTML Selector.euro m "R$ 4,75").ToArray.get? 2 = some "4.75" := by
  obtain ⟨t, ht⟩ := moneyText_cons_of_ge c rest.data h
  have hz : toMoney (String.mk (c :: rest.data)) = Float64.zero := by
    simp only [toMoney, toMoneyParse, ht, parseFloat_cons_of_ge c t h]
  have h475 : toMoney "R$ 4,75" = (Float64.ofRatio false 475 100).1 := by decide!
  have hf0 : FormatFloat Float64.zero = "0.00" := by decide!
  have hf : FormatFloat (toMoney "R$ 4,75") = "4.75" := by decide!
  obtain ⟨hparse, hsign, hnear⟩ := toMoneyParse_of_kept s ds fs hkept hds hfs hsome hlen
  have hmoney : toMoney s =
      (Float64.ofRatio false (decimalValue (ds ++ fs)) (10 ^ fs.length)).1 := by
    simp only [toMoney, hparse]
  refine ⟨hz, ?_, hparse, ?_, ?_, rfl, h475, ?_⟩
  · simp only [onHTML, Market.ToArray, hz, hf0]
    rfl
  · rw [hmoney]
    exact hsign
  · rw [hmoney]
    exact hnear
  · simp only [onHTML, Market.ToArray, hf]
    rfl

/-- C6, witness: the Euro sign before ` 4,75`, and the text `R$ 4,75`, whose
kept characters are `4,75`. -/
theorem toMoney_non_ascii_symbol_witness :
    128 ≤ ('€' : Char).toNat ∧
    ("R$ 4,75" : String).data.filter (fun c => !removed c) = ['4'] ++ ',' :: ['7', '5'] ∧
    decimalValue (['4'] ++ ['7', '5']) = 475 ∧
    (toMoney (String.mk ('€' :: (" 4,75" : String).data)) = Float64.zero ∧
    (onHTML Selector.euro Market.empty
      (String.mk ('€' :: (" 4,75" : String).data))).ToArray.get? 2 = some "0.00" ∧
    toMoneyParse "R$ 4,75" =
      ((Float64.ofRatio false (decimalValue (['4'] ++ ['7', '5']))
        (10 ^ ['7', '5'].length)).1, none) ∧
    (toMoney "R$ 4,75").sign = false ∧
    nearRatio (toMoney "R$ 4,75") (decimalValue (['4'] ++ ['7', '5']))
      (10 ^ ['7', '5'].length) ∧
    (onHTML Selector.euro Market.empty "R$ 4,75").ToArray.get? 2 =
      some (FormatFloat (toMoney "R$ 4,75")) ∧
    toMoney "R$ 4,75" = (Float64.ofRatio false 475 100).1 ∧
    (onHTML Selector.euro Market.empty "R$ 4,75").ToArray.get? 2 = some "4.75") :=
  ⟨by decide, by decide, by decide,
    toMoney_non_ascii_symbol '€' " 4,75" Market.empty "R$ 4,75" ['4'] ['7', '5']
      (by decide) (by decide) (by decide) (by decide) (by decide) (by decide)⟩

/-- C6, as stated, fails: the text `€ 4,75` normalizes to `€4.75`, which is
not well-formed; `toMoney` returns zero, not 4.75, and the row that
`RunMarket` appends has `0.00` in the Euro column. -/
theorem toMoney_euro_sign_not_parsed :
    moneyText "€ 4,75" = "€4.75" ∧
    toMoneyParse "€ 4,75" = (Float64.zero, some NumError.ErrSyntax) ∧
    toMoney "€ 4,75" ≠ (Float64.ofRatio false 475 100).1 ∧
    (onHTML Selector.euro Market.empty "€ 4,75").ToArray.get? 2 ≠ some "4.75" ∧
    (RunMarket envRippleDown emptyWorld).1.files "data/market.csv" =
      some [["1519862460", "0.00", "0.00", "0.00", "0.00", "0.00"]] := by
  decide!

/-! ## The market phase -/

/-- C2, as amended. When the page visit fails, the failure reaches the error
callback only, which logs it; `RunMarket` does not return it and does not
stop. In every such run it stamps the snapshot, whose five fields are still
zero, and saves it, and its result is that of `saveMarketCSV`: the error of
opening `data/market.csv`, else the error of the write, else nil. When the
file opens and the write succeeds, one row, the timestamp and five times
`0.00`, is appended to the file. -/
theorem runMarket_visit_failure_not_returned (env : Env) (w : World)
    (status : Nat) (body err : String)
    (hvisit : env.visit = Visit.failed status body err) :
    RunMarket env w =
      saveMarketCSV env { w with errors := w.errors ++ [err] }
        { Market.empty with Timestamp := env.now "data/market.csv" } ∧
    (RunMarket env w).1.errors = w.errors ++ [err] ∧
    (RunMarket env w).2 =
      (match env.openFile "data/market.csv" with
        | some e => some e
        | none => env.write "data/market.csv") ∧
    (RunMarket env w).1.files "data/market.csv" =
      (match env.openFile "data/market.csv" with
        | some _ => w.files "data/market.csv"
        | none =>
          match env.write "data/market.csv" with
          | some _ => some ((w.files "data/market.csv").getD [])
          | none =>
            some ((w.files "data/market.csv").getD [] ++
              [[FormatInt (env.now "data/market.csv"),
                "0.00", "0.00", "0.00", "0.00", "0.00"]])) := by
  have hf0 : FormatFloat Float64.zero = "0.00" := by decide!
  have hrun : RunMarket env w =
      saveMarketCSV env { w with errors := w.errors ++ [err] }
        { Market.empty with Timestamp := env.now "data/market.csv" } := by
    simp only [RunMarket, hvisit]
  rw [hrun]
  refine ⟨rfl, ?_, ?_, ?_⟩
  · simp only [saveMarketCSV]
    cases env.openFile "data/market.csv" with
    | some e => rfl
    | none => cases env.write "data/market.csv" <;> rfl
  · simp only [saveMarketCSV]
    cases env.openFile "data/market.csv" with
    | some e => rfl
    | none => cases env.write "data/market.csv" <;> rfl
  · simp only [saveMarketCSV]
    cases env.openFile "data/market.csv" with
    | some e => rfl
    | none =>
      cases env.write "data/market.csv" with
      | some e => simp [Files.create]
      | none => simp [Files.create, Files.append, Market.ToArray, Market.empty, hf0]

/-- C2, witness: a visit that times out while the file can be written. The
run returns nil and appends the row of zeros. -/
theorem runMarket_visit_failure_not_returned_witness :
    envRippleEmpty.visit =
      Visit.failed 0 "" "Get http://www.infomoney.com.br/mercados/cambio: timeout" ∧
    (RunMarket envRippleEmpty emptyWorld =
      saveMarketCSV envRippleEmpty
        { emptyWorld with errors := emptyWorld.errors ++
            ["Get http://www.infomoney.com.br/mercados/cambio: timeout"] }
        { Market.empty with Timestamp := envRippleEmpty.now "data/market.csv" } ∧
    (RunMarket envRippleEmpty emptyWorld).1.errors = emptyWorld.errors ++
      ["Get http://www.infomoney.com.br/mercados/cambio: timeout"] ∧
    (RunMarket envRippleEmpty emptyWorld).2 =
      (match envRippleEmpty.openFile "data/market.csv" with
        | some e => some e
        | none => envRippleEmpty.write "data/market.csv") ∧
    (RunMarket envRippleEmpty emptyWorld).1.files "data/market.csv" =
      (match envRippleEmpty.openFile "data/market.csv" with
        | some _ => emptyWorld.files "data/market.csv"
        | none =>
          match envRippleEmpty.write "data/market.csv" with
          | some _ => some ((emptyWorld.files "data/market.csv").getD [])
          | none =>
            some ((emptyWorld.files "data/market.csv").getD [] ++
              [[FormatInt (envRippleEmpty.now "data/market.csv"),
                "0.00", "0.00", "0.00", "0.00", "0.00"]]))) :=
  ⟨rfl, runMarket_visit_failure_not_returned envRippleEmpty emptyWorld 0 ""
    "Get http://www.infomoney.com.br/mercados/cambio: timeout" rfl⟩

/-- C2, as stated, fails: the visit times out, yet `RunMarket` returns nil
and a row is appended to `data/market.csv`. -/
theorem runMarket_visit_failure_still_appends :
    (∃ status body err, envRippleEmpty.visit = Visit.failed status body err) ∧
    (RunMarket envRippleEmpty emptyWorld).2 = none ∧
    emptyWorld.files "data/market.csv" = none ∧
    (RunMarket envRippleEmpty emptyWorld).1.files "data/market.csv" =
      some [["1519862460", "0.00", "0.00", "0.00", "0.00", "0.00"]] := by
  refine ⟨⟨_, _, _, rfl⟩, ?_, rfl, ?_⟩ <;> decide!

/-! ## The ticker phase -/

/-- C1, the code at the failing input: the API answers `[]` for ripple.
`GetCoin` returns `(nil, nil)`, `saveCriptoCSV` creates `data/ripple.csv` and
then panics in `ToArray`. `RunCripto` does not return; bitcoin has its row,
and ethereum, iota and bitcoin-cash are neither requested nor written. -/
theorem runCripto_empty_result_panics :
    (GetCoin envRippleEmpty emptyWorld "ripple").2 = (none, none) ∧
    (RunCripto envRippleEmpty emptyWorld).2 = Result.panic nilDereference ∧
    (RunCripto envRippleEmpty emptyWorld).1.requests =
      ["https://api.coinmarketcap.com/v1/ticker/bitcoin",
        "https://api.coinmarketcap.com/v1/ticker/ripple"] ∧
    (RunCripto envRippleEmpty emptyWorld).1.files "data/bitcoin.csv" =
      some [sampleCoin.ToArray 1519862460] ∧
    (RunCripto envRippleEmpty emptyWorld).1.files "data/ripple.csv" = some [] ∧
    (RunCripto envRippleEmpty emptyWorld).1.files "data/ethereum.csv" = none ∧
    (RunCripto envRippleEmpty emptyWorld).1.files "data/iota.csv" = none ∧
    (RunCripto envRippleEmpty emptyWorld).1.files "data/bitcoin-cash.csv" = none := by
  decide!

theorem getCoin_eq (env : Env) (w : World) (name : String) :
    GetCoin env w name =
      ({ w with requests := w.requests ++ [Sprintf CRIPTO_API name] },
        (GetCoin env emptyWorld name).2) := by
  simp only [GetCoin]
  cases env.get (Sprintf CRIPTO_API name) with
  | transportError err => rfl
  | decodeError err => rfl
  | decoded cs => cases cs <;> rfl

theorem getCoin_snd (env : Env) (w w2 : World) (name : String) :
    (GetCoin env w name).2 = (GetCoin env w2 name).2 := by
  rw [getCoin_eq env w, getCoin_eq env w2]

theorem fetchOk_world (env : Env) (w w2 : World) : fetchOk env w = fetchOk env w2 := by
  funext coin
  simp only [fetchOk, getCoin_snd env w w2]

theorem firstFetchError_world (env : Env) (w w2 : World) (cs : List String) :
    firstFetchError env w cs = firstFetchError env w2 cs := by
  simp only [firstFetchError, getCoin_snd env w w2]

theorem saveCriptoCSV_some (env : Env) (w : World) (c : Criptocoin) (coin : String) :
    (saveCriptoCSV env w (some c) coin).2 = Result.ret (saveError env coin) ∧
    (saveCriptoCSV env w (some c) coin).1.requests = w.requests ∧
    (saveCriptoCSV env w (some c) coin).1.errors = w.errors ∧
    ∀ p, p ≠ coinPath coin → (saveCriptoCSV env w (some c) coin).1.files p = w.files p := by
  unfold saveCriptoCSV saveError
  simp only [coinPath]
  cases env.openFile (Sprintf "data/%s.csv" coin) with
  | some err => exact ⟨rfl, rfl, rfl, fun _ _ => rfl⟩
  | none =>
    cases env.write (Sprintf "data/%s.csv" coin) with
    | some err =>
      refine ⟨rfl, rfl, rfl, fun p hp => ?_⟩
      simp [Files.create, hp]
    | none =>
      refine ⟨rfl, rfl, rfl, fun p hp => ?_⟩
      simp [Files.create, Files.append, hp]

theorem runCriptoLoop_spec (env : Env) : ∀ (cs : List String) (w : World),
    (∀ coin ∈ cs, (GetCoin env w coin).2.2 = none → (GetCoin env w coin).2.1 ≠ none) →
    (runCriptoLoop env cs w).2 = Result.ret (firstFetchError env w cs) ∧
    (runCriptoLoop env cs w).1.requests =
      w.requests ++ (attempted env w cs).map (fun coin => Sprintf CRIPTO_API coin) ∧
    (runCriptoLoop env cs w).1.errors =
      w.errors ++ ((cs.takeWhile (fetchOk env w)).filterMap (saveError env)).map
        (fun err => Sprintf "Err on save cripto: %s" err) ∧
    ∀ p, (∀ coin ∈ cs.takeWhile (fetchOk env w), p ≠ coinPath coin) →
      (runCriptoLoop env cs w).1.files p = w.files p := by
  intro cs
  induction cs with
  | nil =>
    intro w _
    simp [runCriptoLoop, firstFetchError, attempted]
  | cons c rest ih =>
    intro w hrec
    have hc := hrec c (List.mem_cons_self c rest)
    have hg := getCoin_eq env w c
    rcases hres : (GetCoin env emptyWorld c).2 with ⟨res, err⟩
    rw [hres] at hg
    have hsnd : (GetCoin env w c).2 = (res, err) := by rw [hg]
    cases err with
    | some e =>
      have hok : fetchOk env w c = false := by simp [fetchOk, hsnd]
      simp [runCriptoLoop, hg, firstFetchError, hsnd, attempted, hok]
    | none =>
      have hok : fetchOk env w c = true := by simp [fetchOk, hsnd]
      have hne : res ≠ none := by
        have := hc (by rw [hsnd])
        rwa [hsnd] at this
      obtain ⟨rec, rfl⟩ := Option.ne_none_iff_exists'.mp hne
      obtain ⟨h1, h2, h3, h4⟩ := saveCriptoCSV_some env
        { w with requests := w.requests ++ [Sprintf CRIPTO_API c] } rec c
      rcases hsave : saveCriptoCSV env { w with requests := w.requests ++ [Sprintf CRIPTO_API c] }
        (some rec) c with ⟨w2, r⟩
      rw [hsave] at h1 h2 h3 h4
      simp only at h1 h2 h3 h4
      subst h1
      have hfirst : ∀ w3, firstFetchError env w3 (c :: rest) = firstFetchError env w3 rest := by
        intro w3
        have : (GetCoin env w3 c).2.2 = none := by rw [getCoin_snd env w3 w, hsnd]
        simp [firstFetchError, this]
      cases hse : saveError env c with
      | some e =>
        have hrec2 : ∀ coin ∈ rest,
            (GetCoin env { w2 with errors := w2.errors ++ [Sprintf "Err on save cripto: %s" e] } coin).2.2
              = none →
            (GetCoin env { w2 with errors := w2.errors ++ [Sprintf "Err on save cripto: %s" e] } coin).2.1
              ≠ none := by
          intro coin hmem
          rw [getCoin_snd env _ w]
          exact hrec coin (List.mem_cons_of_mem c hmem)
        obtain ⟨i1, i2, i3, i4⟩ := ih _ hrec2
        simp only [runCriptoLoop, hg, hsave, hse]
        rw [fetchOk_world env _ w] at i3 i4
        refine ⟨?_, ?_, ?_, ?_⟩
        · rw [i1, hfirst, firstFetchError_world env _ w]
        · rw [i2]
          simp [attempted, hok, h2, fetchOk_world env _ w]
        · rw [i3]
          simp [hok, h3, hse]
        · intro p hp
          simp only [List.takeWhile_cons, hok, if_true, List.mem_cons, forall_eq_or_imp] at hp
          rw [i4 p hp.2]
          exact h4 p hp.1
      | none =>
        have hrec2 : ∀ coin ∈ rest, (GetCoin env w2 coin).2.2 = none →
            (GetCoin env w2 coin).2.1 ≠ none := by
          intro coin hmem
          rw [getCoin_snd env _ w]
          exact hrec coin (List.mem_cons_of_mem c hmem)
        obtain ⟨i1, i2, i3, i4⟩ := ih _ hrec2
        simp only [runCriptoLoop, hg, hsave, hse]
        rw [fetchOk_world env _ w] at i3 i4
        refine ⟨?_, ?_, ?_, ?_⟩
        · rw [i1, hfirst, firstFetchError_world env _ w]
        · rw [i2]
          simp [attempted, hok, h2, fetchOk_world env _ w]
        · rw [i3]
          simp [hok, h3, hse]
        · intro p hp
          simp only [List.takeWhile_cons, hok, if_true, List.mem_cons, forall_eq_or_imp] at hp
          rw [i4 p hp.2]
          exact h4 p hp.1

theorem coinPath_injective {a b : String} (h : coinPath a = coinPath b) : a = b := by
  have h2 := congrArg String.data h
  have ha : (coinPath a).data = 'd' :: 'a' :: 't' :: 'a' :: '/' :: (a.data ++ ".csv".data) := rfl
  have hb : (coinPath b).data = 'd' :: 'a' :: 't' :: 'a' :: '/' :: (b.data ++ ".csv".data) := rfl
  rw [ha, hb] at h2
  simp only [List.cons.injEq, true_and] at h2
  exact String.ext (List.append_cancel_right h2)

theorem skipped_paths_apart (env : Env) (w : World) (cs : List String) (hnd : cs.Nodup)
    (coin : String) (hmem : coin ∈ skipped env w cs) :
    ∀ c ∈ cs.takeWhile (fetchOk env w), coinPath coin ≠ coinPath c := by
  intro c hc hpath
  have heq := coinPath_injective hpath
  subst heq
  have hsplit := List.takeWhile_append_dropWhile (fetchOk env w) cs
  rw [← hsplit] at hnd
  have hdis := List.disjoint_of_nodup_append hnd
  exact hdis hc (List.mem_of_mem_drop hmem)

/-- C7. In a cycle in which every fetch that succeeds yields a record,
`RunCripto` returns the error of the first failing fetch, or nil when none
fails; a failed save is never returned. The coins requested are those up to
and including the first whose fetch fails; the file of a coin after that one is
left as it was. Each failed save of a coin before it is logged, and the loop
goes on. So a non-nil error is returned exactly when some fetch fails. -/
theorem runCripto_returns_first_fetch_error (env : Env) (w : World)
    (hrec : ∀ coin ∈ coins,
      (GetCoin env w coin).2.2 = none → (GetCoin env w coin).2.1 ≠ none) :
    (RunCripto env w).2 = Result.ret (firstFetchError env w coins) ∧
    (RunCripto env w).1.requests =
      w.requests ++ (attempted env w coins).map (fun coin => Sprintf CRIPTO_API coin) ∧
    (∀ coin ∈ skipped env w coins,
      (RunCripto env w).1.files (coinPath coin) = w.files (coinPath coin)) ∧
    (RunCripto env w).1.errors =
      w.errors ++ ((coins.takeWhile (fetchOk env w)).filterMap (saveError env)).map
        (fun err => Sprintf "Err on save cripto: %s" err) ∧
    ((∃ e, (RunCripto env w).2 = Result.ret (some e)) ↔
      ∃ coin ∈ coins, (GetCoin env w coin).2.2 ≠ none) := by
  obtain ⟨h1, h2, h3, h4⟩ := runCriptoLoop_spec env coins w hrec
  refine ⟨h1, h2, ?_, h3, ?_⟩
  · intro coin hmem
    exact h4 _ (skipped_paths_apart env w coins (by decide) coin hmem)
  · unfold RunCripto
    rw [h1]
    simp only [firstFetchError, Result.ret.injEq]
    constructor
    · rintro ⟨e, he⟩
      obtain ⟨coin, hmem, hcoin⟩ := List.exists_of_findSome?_eq_some he
      exact ⟨coin, hmem, by simp [hcoin]⟩
    · rintro ⟨coin, hmem, hcoin⟩
      cases hf : List.findSome? (fun coin => (GetCoin env w coin).2.2) coins with
      | some e => exact ⟨e, rfl⟩
      | none =>
        rw [List.findSome?_eq_none_iff] at hf
        exact absurd (hf coin hmem) hcoin

/-- C7, witness: the request for ripple fails and the file of bitcoin cannot
be opened. The save failure is logged, the fetch error is returned, and
ethereum, iota and bitcoin-cash are not requested. -/
theorem runCripto_returns_first_fetch_error_witness :
    (∀ coin ∈ coins, (GetCoin envRippleDown emptyWorld coin).2.2 = none →
      (GetCoin envRippleDown emptyWorld coin).2.1 ≠ none) ∧
    (RunCripto envRippleDown emptyWorld).2 =
      Result.ret (firstFetchError envRippleDown emptyWorld coins) ∧
    (RunCripto envRippleDown emptyWorld).1.requests =
      emptyWorld.requests ++
        (attempted envRippleDown emptyWorld coins).map (fun coin => Sprintf CRIPTO_API coin) ∧
    (∀ coin ∈ skipped envRippleDown emptyWorld coins,
      (RunCripto envRippleDown emptyWorld).1.files (coinPath coin) =
        emptyWorld.files (coinPath coin)) ∧
    (RunCripto envRippleDown emptyWorld).1.errors =
      emptyWorld.errors ++
        ((coins.takeWhile (fetchOk envRippleDown emptyWorld)).filterMap
          (saveError envRippleDown)).map (fun err => Sprintf "Err on save cripto: %s" err) ∧
    ((∃ e, (RunCripto envRippleDown emptyWorld).2 = Result.ret (some e)) ↔
      ∃ coin ∈ coins, (GetCoin envRippleDown emptyWorld coin).2.2 ≠ none) :=
  ⟨by decide!, runCripto_returns_first_fetch_error envRippleDown emptyWorld (by decide!)⟩

/-- The run of the witness, evaluated: the error of ripple is returned, the
failed save of bitcoin is logged, and three coins are skipped. -/
theorem runCripto_sample_run :
    (RunCripto envRippleDown emptyWorld).2 =
      Result.ret (some "Error on critpo request: connection refused") ∧
    (RunCripto envRippleDown emptyWorld).1.requests =
      ["https://api.coinmarketcap.com/v1/ticker/bitcoin",
        "https://api.coinmarketcap.com/v1/ticker/ripple"] ∧
    (RunCripto envRippleDown emptyWorld).1.errors =
      ["Err on save cripto: permission denied"] ∧
    skipped envRippleDown emptyWorld coins = ["ethereum", "iota", "bitcoin-cash"] := by
  decide!

end Crawler
